import Mathlib

/-!
Verification development for the midpage-ai/render-research-api document renderer.

The embedding models the markdown-to-document conversion pipeline of
`src/index.ts` (`parseMarkdownWithLinks`, `createParagraphWithLinks`,
paragraph segmentation and `createDocxDocument`) and the PDF renderer's
normalizer `EmailService.parseMarkdownToText` (`src/unnamed/part_000`).

JavaScript strings are modelled as `List Char`; JavaScript numbers that can
go negative (link `start`/`end` offsets, computed as `match.index - offset`)
are modelled as `Int`.  The sequential regex replacements of the source are
modelled by deterministic scanners: each of the source's regexes is simple
enough (lazy classes bounded by a forbidden character, greedy classes
followed by a character outside the class) that backtracking never changes
the match, so a deterministic left-to-right scan computes exactly the
JS match.  The `m`-flagged line-anchored substitutions (headers, bullets)
are modelled line-wise over the ECMAScript line-terminator set (`\n`,
`\r`, U+2028, U+2029), with the separating terminator characters
preserved in place, which is what `gm` anchoring does; the paragraph
segmentation instead uses a plain `'\n'` split, which is the semantics of
the source's `split('\n')` calls.  `\s` is taken as the ASCII whitespace
set.
The ambient timestamp read by the source (`new Date().toLocaleString()`)
is modelled as an explicit `now` argument.
-/

/-! ## Character classes used by the source's regexes -/

/-- Class `[A-Z]` (uppercase Latin letter). -/
def isUpperAZ (c : Char) : Bool := decide (65 ≤ c.toNat ∧ c.toNat ≤ 90)

/-- Class `[IVX]` (Roman-numeral letters used by the source). -/
def isRomanCh (c : Char) : Bool := decide (c.toNat = 73 ∨ c.toNat = 86 ∨ c.toNat = 88)

/-- Class `\d`. -/
def isDigitCh (c : Char) : Bool := decide (48 ≤ c.toNat ∧ c.toNat ≤ 57)

/-- Class `\s` (ASCII part: space, tab, newline, carriage return, vertical tab, form feed). -/
def isWsChar (c : Char) : Bool :=
  decide (c.toNat = 32 ∨ c.toNat = 9 ∨ c.toNat = 10 ∨ c.toNat = 13 ∨ c.toNat = 11 ∨ c.toNat = 12)

/-! ## Generic string (List Char) utilities mirroring the JS string methods -/

/-- First index at which `pat` occurs in `s` (JS `String.indexOf(pat)`). -/
def substrIndex? (s pat : List Char) : Option Nat :=
  match s with
  | [] => if pat.isPrefixOf ([] : List Char) then some 0 else none
  | c :: t =>
    if pat.isPrefixOf (c :: t) then some 0
    else (substrIndex? t pat).map (fun n => n + 1)

/-- JS `String.indexOf(pat, i)`: first occurrence of `pat` at position at least `i`. -/
def indexOfFrom? (s pat : List Char) (i : Nat) : Option Nat :=
  match substrIndex? (s.drop i) pat with
  | none => none
  | some k => some (i + k)

/-- The ECMAScript `GetSubstitution` processing of the replacement string of
a string-pattern `String.replace`: `$$` produces `$`, `$&` the matched
text, `$` followed by U+0060 (backquote) the text before the match, `$'`
the text after the match; everything else (including `$1`..`$9` and `$<`,
since a string pattern has no capture groups) stays literal. -/
def dollarSubst (matched before after : List Char) : List Char → List Char
  | [] => []
  | c :: r =>
    if c = '$' then
      match r with
      | [] => [c]
      | d :: r2 =>
        if d = '$' then '$' :: dollarSubst matched before after r2
        else if d = '&' then matched ++ dollarSubst matched before after r2
        else if d.toNat = 96 then before ++ dollarSubst matched before after r2
        else if d.toNat = 39 then after ++ dollarSubst matched before after r2
        else c :: d :: dollarSubst matched before after r2
    else c :: dollarSubst matched before after r

/-- JS `String.replace(pat, repl)` with a plain-string pattern: replace the
first occurrence of `pat` by the `$`-processed replacement, or return the
string unchanged when `pat` does not occur. -/
def replaceFirst (s pat repl : List Char) : List Char :=
  match substrIndex? s pat with
  | none => s
  | some i =>
    s.take i ++ dollarSubst pat (s.take i) (s.drop (i + pat.length)) repl ++
      s.drop (i + pat.length)

/-- JS `String.split('\n')` (used by the paragraph segmentation; note this
is a plain split on `'\n'`, unlike the `gm` line model below). -/
def splitLines : List Char → List (List Char)
  | [] => [[]]
  | c :: t =>
    if c = '\n' then [] :: splitLines t
    else
      match splitLines t with
      | [] => [[c]]
      | h :: r => (c :: h) :: r

/-- ECMAScript line terminators, the characters after which a multiline
`^` anchors (and before which `$` matches, and which `.` does not match):
`\n`, `\r`, U+2028 (LS) and U+2029 (PS). -/
def isLineTerm (c : Char) : Bool :=
  decide (c.toNat = 10 ∨ c.toNat = 13 ∨ c.toNat = 8232 ∨ c.toNat = 8233)

/-- The `gm` lines of a string: the maximal terminator-free segments, each
delimited by a single line-terminator character.  Fuel is spent once per
line; every recursive step consumes the line plus its terminator, so fuel
equal to the string length is always enough. -/
def gmSplitF : Nat → List Char → List (List Char)
  | 0, s => [s]
  | Nat.succ fuel, s =>
    let line := s.takeWhile (fun c => ! isLineTerm c)
    match s.dropWhile (fun c => ! isLineTerm c) with
    | [] => [line]
    | _ :: rest => line :: gmSplitF fuel rest

def gmSplit (s : List Char) : List (List Char) := gmSplitF s.length s

/-- Rewrite every `gm` line of `s` with `f`, keeping each separating
line-terminator character in place.  This is the semantics of an anchored
`/^...$/gm` substitution whose pattern spans a whole line. -/
def gmLinesF : Nat → (List Char → List Char) → List Char → List Char
  | 0, f, s => f s
  | Nat.succ fuel, f, s =>
    let line := s.takeWhile (fun c => ! isLineTerm c)
    match s.dropWhile (fun c => ! isLineTerm c) with
    | [] => f line
    | t :: rest => f line ++ t :: gmLinesF fuel f rest

def gmMapLines (f : List Char → List Char) (s : List Char) : List Char :=
  gmLinesF s.length f s

/-- JS `String.split('\n\n')` (leftmost, non-overlapping separators). -/
def splitDoubleNL : List Char → List (List Char)
  | [] => [[]]
  | [c] => [[c]]
  | c :: d :: t =>
    if c = '\n' ∧ d = '\n' then [] :: splitDoubleNL t
    else
      match splitDoubleNL (d :: t) with
      | [] => [[c]]
      | h :: r => (c :: h) :: r

/-- JS `String.trim()` (over the modelled whitespace set). -/
def jsTrim (s : List Char) : List Char :=
  ((s.dropWhile isWsChar).reverse.dropWhile isWsChar).reverse

/-! ## Global regex substitution

A matcher tries to recognise a match at the head of its argument, returning
`(matched, replacement, rest)` on success.  `globalRepF` scans the string
from the left and fires the matcher at every position, exactly as a
`/.../g` replacement does; scanning resumes after the replaced part.
All the source's patterns match at least one character, so fuel equal to
the string length suffices (one unit of fuel is spent per character or per
match, and every match consumes at least one character). -/

def globalRepF : Nat → (List Char → Option (List Char × List Char × List Char)) →
    List Char → List Char
  | 0, _, s => s
  | Nat.succ fuel, m, s =>
    match m s with
    | some (_, rp, rest) => rp ++ globalRepF fuel m rest
    | none =>
      match s with
      | [] => []
      | c :: t => c :: globalRepF fuel m t

/-- A `/.../g` replacement over the whole string. -/
def gsubAll (m : List Char → Option (List Char × List Char × List Char))
    (s : List Char) : List Char :=
  globalRepF s.length m s

/-! ## The link pattern `\[([^\]]+)\]\(([^)]+)\)` -/

/-- Try to match `\[([^\]]+)\]\(([^)]+)\)` at the head of `s`; on success
return `(label, url)`.  The lazy/greedy structure of this pattern is
deterministic: `[^\]]+` runs up to the first `]`, `[^)]+` up to the first
`)`. -/
def linkMatchAt (s : List Char) : Option (List Char × List Char) :=
  match s with
  | [] => none
  | c :: t =>
    if c = '[' then
      let label := t.takeWhile (fun a => ¬ a = ']')
      if label.isEmpty then none
      else
        match t.dropWhile (fun a => ¬ a = ']') with
        | b :: d :: t2 =>
          if b = ']' ∧ d = '(' then
            let url := t2.takeWhile (fun a => ¬ a = ')')
            if url.isEmpty then none
            else
              match t2.dropWhile (fun a => ¬ a = ')') with
              | [] => none
              | _ :: _ => some (label, url)
          else none
        | _ => none
    else none

/-- Leftmost match of the link pattern in `s`: `(index, label, url)`.
This is one `linkRegex.exec` step of the source's extraction loop. -/
def findLinkFrom : List Char → Option (Nat × List Char × List Char)
  | [] =>
    (match linkMatchAt [] with
     | some (l, u) => some (0, l, u)
     | none => none)
  | c :: t =>
    match linkMatchAt (c :: t) with
    | some (l, u) => some (0, l, u)
    | none => (findLinkFrom t).map (fun x => (x.1 + 1, x.2.1, x.2.2))

/-- Matcher for the PDF normalizer's `text.replace(linkRegex, '$1 ($2)')`. -/
def linkInlineMatchAt (s : List Char) : Option (List Char × List Char × List Char) :=
  match linkMatchAt s with
  | none => none
  | some (label, url) =>
    let fullLen := label.length + url.length + 4
    some ('[' :: (label ++ ']' :: '(' :: (url ++ [')'])),
          label ++ ' ' :: '(' :: (url ++ [')']),
          s.drop fullLen)

/-! ## Bold and italic patterns (the emphasis no-ops) -/

/-- Lazy search for the closing `**` of `/\*\*(.*?)\*\*/`: the shortest
newline-free inner text followed by `**`. -/
def findCloseStars2 : List Char → Option (List Char × List Char)
  | [] => none
  | [_] => none
  | c :: d :: t =>
    if c = '*' ∧ d = '*' then some ([], t)
    else if c = '\n' then none
    else (findCloseStars2 (d :: t)).map (fun pr => (c :: pr.1, pr.2))

/-- Matcher for `text.replace(/\*\*(.*?)\*\*/g, '**$1**')`: the replacement
string rebuilds exactly the matched text. -/
def boldMatchAt (s : List Char) : Option (List Char × List Char × List Char) :=
  match s with
  | c :: d :: t =>
    if c = '*' ∧ d = '*' then
      match findCloseStars2 t with
      | some (inner, rest) =>
        some ('*' :: '*' :: (inner ++ ['*', '*']), '*' :: '*' :: (inner ++ ['*', '*']), rest)
      | none => none
    else none
  | _ => none

/-- Lazy search for the closing `*` of `/\*(.*?)\*/`. -/
def findCloseStar1 : List Char → Option (List Char × List Char)
  | [] => none
  | c :: t =>
    if c = '*' then some ([], t)
    else if c = '\n' then none
    else (findCloseStar1 t).map (fun pr => (c :: pr.1, pr.2))

/-- Matcher for `text.replace(/\*(.*?)\*/g, '*$1*')`. -/
def italicMatchAt (s : List Char) : Option (List Char × List Char × List Char) :=
  match s with
  | c :: t =>
    if c = '*' then
      match findCloseStar1 t with
      | some (inner, rest) =>
        some ('*' :: (inner ++ ['*']), '*' :: (inner ++ ['*']), rest)
      | none => none
    else none
  | [] => none

/-! ## Outline heuristics `([A-Z]\.\s+[^.]*?\.)\s+([A-Z]\.\s+)` and the
`[IVX]+` variant -/

/-- Match `[A-Z]\.\s+` at the head of `t`: an uppercase letter, a dot and a
maximal nonempty whitespace run; returns `(matched, rest)`. -/
def enumDotWs (t : List Char) : Option (List Char × List Char) :=
  match t with
  | [] => none
  | c :: t1 =>
    if isUpperAZ c then
      match t1 with
      | [] => none
      | d :: t2 =>
        if d = '.' then
          let w := t2.takeWhile isWsChar
          if w.isEmpty then none
          else some (c :: '.' :: w, t2.dropWhile isWsChar)
        else none
    else none

/-- Match `[IVX]+\.\s+` at the head of `t`. -/
def romanDotWs (t : List Char) : Option (List Char × List Char) :=
  let r := t.takeWhile isRomanCh
  if r.isEmpty then none
  else
    match t.dropWhile isRomanCh with
    | [] => none
    | d :: t2 =>
      if d = '.' then
        let w := t2.takeWhile isWsChar
        if w.isEmpty then none
        else some (r ++ '.' :: w, t2.dropWhile isWsChar)
      else none

/-- Generic matcher for `(<enum>\.\s+[^.]*?\.)\s+(<enum>\.\s+)` with
replacement `$1\n$2`: the separating whitespace between the two enumerator
groups is replaced by a single newline. -/
def outlineMatchWith (enum : List Char → Option (List Char × List Char))
    (s : List Char) : Option (List Char × List Char × List Char) :=
  match enum s with
  | none => none
  | some (m1, t1) =>
    let body := t1.takeWhile (fun c => ¬ c = '.')
    match t1.dropWhile (fun c => ¬ c = '.') with
    | [] => none
    | _ :: t2 =>
      let w2 := t2.takeWhile isWsChar
      if w2.isEmpty then none
      else
        match enum (t2.dropWhile isWsChar) with
        | none => none
        | some (m2, rest) =>
          let g1 := m1 ++ body ++ ['.']
          some (g1 ++ w2 ++ m2, g1 ++ '\n' :: m2, rest)

def outlineLettersMatchAt (s : List Char) : Option (List Char × List Char × List Char) :=
  outlineMatchWith enumDotWs s

def outlineRomansMatchAt (s : List Char) : Option (List Char × List Char × List Char) :=
  outlineMatchWith romanDotWs s

/-- Matcher for `text.replace(/\n\n+/g, '\n\n')`: a maximal run of at least
two newlines collapses to exactly two. -/
def collapseMatchAt (s : List Char) : Option (List Char × List Char × List Char) :=
  match s with
  | c :: d :: t =>
    if c = '\n' ∧ d = '\n' then
      some ('\n' :: '\n' :: t.takeWhile (fun a => a = '\n'),
            ['\n', '\n'],
            t.dropWhile (fun a => a = '\n'))
    else none
  | _ => none

/-! ## Line-anchored substitutions -/

/-- One header substitution `text.replace(/^<mark>(.*$)/gm, '<mark>$1\n')`:
a `gm` line starting with `mark` is kept and gets one extra newline
appended (inserted before the line's terminator). -/
def headerRule (mark : List Char) (t : List Char) : List Char :=
  gmMapLines (fun l => if mark.isPrefixOf l then l ++ ['\n'] else l) t

/-- The three header substitutions of the source, in source order
(`### `, then `## `, then `# `). -/
def headerSteps (t : List Char) : List Char :=
  headerRule ("# ".toList) (headerRule ("## ".toList) (headerRule ("### ".toList) t))

/-- One line of `text.replace(/^[-*+] (.*$)/gm, '• $1\n')`. -/
def bulletMarkLine (l : List Char) : List Char :=
  match l with
  | c :: d :: rest =>
    if (c = '-' ∨ c = '*' ∨ c = '+') ∧ d = ' ' then '•' :: ' ' :: (rest ++ ['\n']) else l
  | _ => l

/-- One line of `text.replace(/^\d+\. (.*$)/gm, '• $1\n')`. -/
def bulletNumLine (l : List Char) : List Char :=
  let ds := l.takeWhile isDigitCh
  if ds.isEmpty then l
  else
    match l.dropWhile isDigitCh with
    | c :: d :: rest =>
      if c = '.' ∧ d = ' ' then '•' :: ' ' :: (rest ++ ['\n']) else l
    | _ => l

/-! ## The full normalizers -/

def boldStep (t : List Char) : List Char := gsubAll boldMatchAt t
def italicStep (t : List Char) : List Char := gsubAll italicMatchAt t
def outlineLetters (t : List Char) : List Char := gsubAll outlineLettersMatchAt t
def outlineRomans (t : List Char) : List Char := gsubAll outlineRomansMatchAt t
def collapseNewlines (t : List Char) : List Char := gsubAll collapseMatchAt t
def bulletMarkers (t : List Char) : List Char := gmMapLines bulletMarkLine t
def bulletNumbers (t : List Char) : List Char := gmMapLines bulletNumLine t

/-- The substitutions both normalizers apply after the link handling, in
source order (`src/index.ts` lines 74-97, identical text in
`src/unnamed/part_000` lines 35-58). -/
def postLinkSteps (t : List Char) : List Char :=
  bulletNumbers (bulletMarkers (collapseNewlines (outlineRomans (outlineLetters
    (italicStep (boldStep (headerSteps t)))))))

/-- An extracted hyperlink (`{text, url, start, end}` of the source; the
source's `end` field is called `stop` here because `end` is a Lean keyword). -/
structure Link where
  text : List Char
  url : List Char
  start : Int
  stop : Int
deriving DecidableEq, Repr

/-- The source's `while ((match = linkRegex.exec(markdown)) !== null)` loop:
`remaining` is the unscanned suffix of the original markdown, `base` its
absolute position, `text` the evolving copy in which matches are replaced,
`offset` the accumulated shrinkage.  Fuel is spent once per extracted link;
every link consumes at least six characters of `remaining`, so
`md.length + 1` fuel is always enough. -/
def extractLinksF : Nat → List Char → Nat → List Char → Nat → List Char × List Link
  | 0, _, _, text, _ => (text, [])
  | Nat.succ fuel, remaining, base, text, offset =>
    match findLinkFrom remaining with
    | none => (text, [])
    | some (i, label, url) =>
      let fullLen := label.length + url.length + 4
      let full := '[' :: (label ++ ']' :: '(' :: (url ++ [')']))
      let start : Int := ((base + i : Nat) : Int) - ((offset : Nat) : Int)
      let lk : Link :=
        { text := label, url := url, start := start, stop := start + (label.length : Int) }
      let r := extractLinksF fuel (remaining.drop (i + fullLen)) (base + i + fullLen)
        (replaceFirst text full label) (offset + (fullLen - label.length))
      (r.1, lk :: r.2)

/-- Result of the DOCX normalizer (`{ text, links }`). -/
structure ParsedMarkdown where
  text : List Char
  links : List Link
deriving DecidableEq, Repr

/-- `parseMarkdownWithLinks` of `src/index.ts` (lines 48-100). -/
def parseMarkdownWithLinks (md : List Char) : ParsedMarkdown :=
  let r := extractLinksF (md.length + 1) md 0 md 0
  { text := postLinkSteps r.1, links := r.2 }

/-- `EmailService.parseMarkdownToText` of `src/unnamed/part_000` (lines
29-61): links are rewritten inline to `label (url)`, then the same
substitution chain runs. -/
def parseMarkdownToText (md : List Char) : List Char :=
  postLinkSteps (gsubAll linkInlineMatchAt md)

/-! ## Document model (`docx` objects used by `createDocxDocument`) -/

/-- A `TextRun` of the source: text plus the styling options it passes. -/
structure TextRun where
  text : List Char
  bold : Bool := false
  color : Option (List Char) := none
  underline : Bool := false
  size : Option Nat := none
deriving DecidableEq, Repr

/-- A `Paragraph` of the source: its runs plus the layout options used
(`heading: HEADING_1`, `alignment: CENTER`, `spacing`). -/
structure ParagraphB where
  runs : List TextRun
  heading1 : Bool := false
  centered : Bool := false
  spacingAfter : Nat := 0
  spacingBefore : Nat := 0
deriving DecidableEq, Repr

/-- The assembled document: the ordered paragraph blocks of its single
section.  Serialization to bytes (`Packer.toBuffer`) is outside the model. -/
structure Document where
  blocks : List ParagraphB
deriving DecidableEq, Repr

/-- Stable insertion into a start-sorted list. -/
def insertByStart (x : Link) : List Link → List Link
  | [] => [x]
  | y :: ys => if x.start ≤ y.start then x :: y :: ys else y :: insertByStart x ys

/-- The source's `.sort((a, b) => a.start - b.start)`: a stable sort by the
link's original `start` offset (`Array.prototype.sort` is stable). -/
def sortByStart : List Link → List Link
  | [] => []
  | x :: xs => insertByStart x (sortByStart xs)

/-- The `for (const link of sortedLinks)` loop of `createParagraphWithLinks`
(lines 120-146): emit the text before the match, the styled link run and the
` (url)` run, advancing `currentIndex`; links whose text is not found at or
after the cursor are skipped (`continue`).  Returns the emitted runs and the
final `currentIndex`. -/
def cpwlLoop (p : List Char) : List Link → Nat → List TextRun × Nat
  | [], ci => ([], ci)
  | lk :: rest, ci =>
    match indexOfFrom? p lk.text ci with
    | none => cpwlLoop p rest ci
    | some j =>
      let r := cpwlLoop p rest (j + lk.text.length)
      ((if ci < j then [{ text := (p.take j).drop ci }] else []) ++
        { text := lk.text, color := some ("0563C1".toList), underline := true } ::
        { text := ' ' :: '(' :: (lk.url ++ [')']), color := some ("666666".toList),
          size := some 20 } :: r.1,
       r.2)

/-- `createParagraphWithLinks` of `src/index.ts` (lines 105-160).  The
source's filter condition is `paragraphText.includes(link.text) &&
paragraphText.indexOf(link.text) >= currentIndex` with `currentIndex`
still `0` when the filter runs, so both conjuncts say the text occurs. -/
def createParagraphWithLinks (links : List Link) (p : List Char) : ParagraphB :=
  let sorted := sortByStart (links.filter (fun l => (substrIndex? p l.text).isSome))
  if sorted.length = 0 then
    { runs := [{ text := p }], spacingAfter := 200 }
  else
    let r := cpwlLoop p sorted 0
    { runs := r.1 ++ (if r.2 < p.length then [{ text := p.drop r.2 }] else []),
      spacingAfter := 200 }

/-- Paragraph segmentation of `createDocxDocument` (lines 162-178): split on
blank lines, discard blocks that trim to empty, then split any block still
containing a newline on single newlines (again discarding empty pieces). -/
def segmentParagraphs (t : List Char) : List (List Char) :=
  let paragraphs := (splitDoubleNL t).filter (fun p => (jsTrim p).length > 0)
  (paragraphs.map (fun p =>
    if p.contains '\n' then (splitLines p).filter (fun q => (jsTrim q).length > 0)
    else [p])).flatten

def roleWord (isPlaintiff : Bool) : List Char :=
  if isPlaintiff then "Plaintiff".toList else "Defendant".toList

/-- Title block: `Legal {Plaintiff|Defendant} Review Results`, heading 1,
centered. -/
def titleBlock (isPlaintiff : Bool) : ParagraphB :=
  { runs := [{ text := "Legal ".toList ++ roleWord isPlaintiff ++ " Review Results".toList }],
    heading1 := true, centered := true, spacingAfter := 400, spacingBefore := 400 }

/-- Metadata block `Document: <name>`, bold. -/
def docNameBlock (documentName : List Char) : ParagraphB :=
  { runs := [{ text := "Document: ".toList ++ documentName, bold := true }],
    spacingAfter := 200 }

/-- Metadata block `Role: {Plaintiff|Defendant}`, bold. -/
def roleBlock (isPlaintiff : Bool) : ParagraphB :=
  { runs := [{ text := "Role: ".toList ++ roleWord isPlaintiff, bold := true }],
    spacingAfter := 400 }

/-- Footer block `Generated on <timestamp>`, small and muted.  The timestamp
the source reads from `new Date().toLocaleString()` is the explicit `now`
argument of the model. -/
def footerBlock (now : List Char) : ParagraphB :=
  { runs := [{ text := "Generated on ".toList ++ now, size := some 20,
               color := some ("666666".toList) }],
    spacingBefore := 400 }

/-- `createDocxDocument` of `src/index.ts` (lines 46-231), up to (and
excluding) binary serialization: normalize the markdown, segment the text,
and assemble title, metadata, body paragraphs and footer. -/
def createDocxDocument (content documentName : List Char) (isPlaintiff : Bool)
    (now : List Char) : Document :=
  let parsed := parseMarkdownWithLinks content
  let paragraphs := segmentParagraphs parsed.text
  { blocks :=
      [titleBlock isPlaintiff, docNameBlock documentName, roleBlock isPlaintiff] ++
      paragraphs.map (fun p => createParagraphWithLinks parsed.links (jsTrim p)) ++
      [footerBlock now] }

/-! ## Spec-side characterization of the extraction loop

`scanMatchesF` records the raw regex matches (absolute index in the original
markdown, label, url) without any offset bookkeeping; `annotateLinks`
rebuilds the recorded links from them by the spec's formula: `start` is the
match index minus the accumulated shrinkage `len(fullMatch) - len(label)` of
all previous links, and `end = start + len(label)`. -/

def scanMatchesF : Nat → List Char → Nat → List (Nat × List Char × List Char)
  | 0, _, _ => []
  | Nat.succ fuel, remaining, base =>
    match findLinkFrom remaining with
    | none => []
    | some (i, label, url) =>
      (base + i, label, url) ::
        scanMatchesF fuel (remaining.drop (i + (label.length + url.length + 4)))
          (base + i + (label.length + url.length + 4))

/-- All matches of the link regex over `md`, in scan order. -/
def scanMatches (md : List Char) : List (Nat × List Char × List Char) :=
  scanMatchesF (md.length + 1) md 0

/-- Modelled from the spec: rebuild link records from the raw matches using
the cumulative-shrinkage offset formula of §4.1 step 1. -/
def annotateLinks : List (Nat × List Char × List Char) → Nat → List Link
  | [], _ => []
  | (idx, label, url) :: rest, shrink =>
    let start : Int := ((idx : Nat) : Int) - ((shrink : Nat) : Int)
    { text := label, url := url, start := start, stop := start + (label.length : Int) } ::
      annotateLinks rest (shrink + (url.length + 4))

/-- The evolving-text side of the extraction loop, characterized over the
raw matches: each scanned match triggers a first-occurrence replacement of
its full markup by its bare label in the accumulated text.  (Note the
first occurrence struck by `replaceFirst` need not be the scanned one: an
earlier replacement can have created an identical artifact copy earlier in
the text.) -/
def replaceMatchesText : List (Nat × List Char × List Char) → List Char → List Char
  | [], text => text
  | (_, label, url) :: rest, text =>
    replaceMatchesText rest
      (replaceFirst text ('[' :: (label ++ ']' :: '(' :: (url ++ [')']))) label)

/-- Links are well formed when every span satisfies `start ≤ stop` and
consecutive spans do not overlap. -/
def linksWellFormed : List Link → Prop
  | [] => True
  | [l] => l.start ≤ l.stop
  | a :: b :: rest => a.start ≤ a.stop ∧ a.stop ≤ b.start ∧ linksWellFormed (b :: rest)

/-- Concatenated text of a list of runs. -/
def joinRunTexts (rs : List TextRun) : List Char := (rs.map TextRun.text).flatten

/-! ## Soundness of the substring search -/

lemma substrIndex?_sound : ∀ (s pat : List Char) (k : Nat), substrIndex? s pat = some k →
    k + pat.length ≤ s.length ∧ (s.drop k).take pat.length = pat := by
  intro s
  induction s with
  | nil =>
    intro pat k h
    simp only [substrIndex?] at h
    split at h
    · rename_i hp
      have hpre : pat <+: ([] : List Char) := List.isPrefixOf_iff_prefix.mp hp
      have : pat = [] := List.prefix_nil.mp hpre
      cases h
      simp [this]
    · cases h
  | cons c t ih =>
    intro pat k h
    simp only [substrIndex?] at h
    split at h
    · rename_i hp
      have hpre : pat <+: (c :: t) := List.isPrefixOf_iff_prefix.mp hp
      obtain ⟨u, hu⟩ := hpre
      cases h
      constructor
      · have hlen := congrArg List.length hu
        simp only [List.length_append, List.length_cons] at hlen
        simp only [List.length_cons]
        omega
      · rw [List.drop_zero, ← hu, List.take_left]
    · rcases hm : substrIndex? t pat with _ | n
      · rw [hm] at h; cases h
      · rw [hm] at h
        simp at h
        obtain ⟨h1, h2⟩ := ih pat n hm
        subst h
        refine ⟨by simp; omega, ?_⟩
        simpa using h2

lemma indexOfFrom?_sound (p pat : List Char) (i j : Nat) (hi : i ≤ p.length)
    (h : indexOfFrom? p pat i = some j) :
    i ≤ j ∧ j + pat.length ≤ p.length ∧ (p.drop j).take pat.length = pat := by
  unfold indexOfFrom? at h
  rcases hm : substrIndex? (p.drop i) pat with _ | k
  · rw [hm] at h; cases h
  · rw [hm] at h
    simp at h
    obtain ⟨h1, h2⟩ := substrIndex?_sound _ _ _ hm
    subst h
    have hlen : (p.drop i).length = p.length - i := by simp
    refine ⟨by omega, by omega, ?_⟩
    rw [List.drop_drop] at h2
    exact h2

/-- Gluing two adjacent slices of the same list. -/
lemma slice_glue (q : List Char) (a b : Nat) (hab : a ≤ b) (hb : b ≤ q.length) :
    (q.take b).drop a ++ q.drop b = q.drop a := by
  have h1 : q.drop a = (q.take b ++ q.drop b).drop a := by rw [List.take_append_drop]
  rw [h1, List.drop_append_of_le_length]
  simp
  omega

/-! ## C1: run reconstruction in `createParagraphWithLinks` -/

/-- The runs of a paragraph that are not the inserted ` (url)` annotations:
exactly the URL runs carry `size := some 20`. -/
def keptRuns (rs : List TextRun) : List TextRun :=
  rs.filter (fun r => ! (r.size == some 20))

lemma cpwlLoop_spec : ∀ (lks : List Link) (p : List Char) (ci : Nat), ci ≤ p.length →
    ci ≤ (cpwlLoop p lks ci).2 ∧ (cpwlLoop p lks ci).2 ≤ p.length ∧
    joinRunTexts (keptRuns (cpwlLoop p lks ci).1) = (p.take (cpwlLoop p lks ci).2).drop ci := by
  intro lks
  induction lks with
  | nil =>
    intro p ci hci
    refine ⟨le_refl _, hci, ?_⟩
    have h0 : (p.take ci).drop ci = [] := by
      apply List.drop_eq_nil_of_le
      simp
    simp [cpwlLoop, keptRuns, joinRunTexts, h0]
  | cons lk rest ih =>
    intro p ci hci
    rcases hidx : indexOfFrom? p lk.text ci with _ | j
    · simpa [cpwlLoop, hidx] using ih p ci hci
    · obtain ⟨hij, hjl, hocc⟩ := indexOfFrom?_sound p lk.text ci j hci hidx
      obtain ⟨hr1, hr2, hr3⟩ := ih p (j + lk.text.length) hjl
      simp only [cpwlLoop, hidx]
      refine ⟨by omega, hr2, ?_⟩
      unfold keptRuns joinRunTexts
      rw [List.filter_append, List.map_append, List.flatten_append]
      have hcons : List.filter (fun r => ! (r.size == some 20))
          ({ text := lk.text, color := some ("0563C1".toList), underline := true : TextRun } ::
           { text := ' ' :: '(' :: (lk.url ++ [')']), color := some ("666666".toList),
             size := some 20 : TextRun } ::
           (cpwlLoop p rest (j + lk.text.length)).1) =
          { text := lk.text, color := some ("0563C1".toList), underline := true : TextRun } ::
          List.filter (fun r => ! (r.size == some 20))
            (cpwlLoop p rest (j + lk.text.length)).1 := rfl
      rw [hcons]
      unfold keptRuns joinRunTexts at hr3
      have hq : (p.take (cpwlLoop p rest (j + lk.text.length)).2).length
          = (cpwlLoop p rest (j + lk.text.length)).2 := by simp; omega
      have htj : (p.take (cpwlLoop p rest (j + lk.text.length)).2).take j = p.take j := by
        rw [List.take_take]
        congr 1
        omega
      have htjL : (p.take (cpwlLoop p rest (j + lk.text.length)).2).take (j + lk.text.length)
          = p.take (j + lk.text.length) := by
        rw [List.take_take]
        congr 1
        omega
      have hmid : (p.take (j + lk.text.length)).drop j = lk.text := by
        have hdt : (p.take (j + lk.text.length)).drop j =
            (p.drop j).take ((j + lk.text.length) - j) := by
          rw [List.drop_take]
        rw [hdt]
        simpa using hocc
      have hglue2 : (p.take (j + lk.text.length)).drop j ++
          (p.take (cpwlLoop p rest (j + lk.text.length)).2).drop (j + lk.text.length)
          = (p.take (cpwlLoop p rest (j + lk.text.length)).2).drop j := by
        rw [← htjL]
        exact slice_glue _ j (j + lk.text.length) (by omega) (by omega)
      have hglue1 : (p.take j).drop ci ++
          (p.take (cpwlLoop p rest (j + lk.text.length)).2).drop j
          = (p.take (cpwlLoop p rest (j + lk.text.length)).2).drop ci := by
        rw [← htj]
        exact slice_glue _ ci j hij (by omega)
      have hpre : (List.map TextRun.text (List.filter (fun r => ! (r.size == some 20))
          (if ci < j then [{ text := (p.take j).drop ci : TextRun }] else []))).flatten
          = (p.take j).drop ci := by
        split
        · simp
        · have hcij : ci = j := by omega
          subst hcij
          have h0 : (p.take ci).drop ci = [] := by
            apply List.drop_eq_nil_of_le
            simp
          simp [h0]
      rw [hpre]
      simp only [List.map_cons, List.flatten_cons]
      rw [hr3]
      rw [hmid] at hglue2
      rw [hglue2]
      exact hglue1

/-- C1: in every paragraph produced by `createParagraphWithLinks`, the
concatenated text of all runs other than the inserted ` (url)` annotation
runs (the runs styled `size 20`) is exactly the paragraph's text: stripping
the URL annotations recovers the paragraph's normalized text with no
characters dropped or duplicated, for every paragraph text and every list
of extracted links. -/
theorem c1_runs_reconstruct (p : List Char) (links : List Link) :
    joinRunTexts (keptRuns (createParagraphWithLinks links p).runs) = p := by
  simp only [createParagraphWithLinks]
  split
  · simp [keptRuns, joinRunTexts]
  · obtain ⟨h1, h2, h3⟩ := cpwlLoop_spec
      (sortByStart (links.filter (fun l => (substrIndex? p l.text).isSome))) p 0 (Nat.zero_le _)
    unfold keptRuns joinRunTexts
    rw [List.filter_append, List.map_append, List.flatten_append]
    unfold keptRuns joinRunTexts at h3
    rw [h3, List.drop_zero]
    split
    · simp [List.take_append_drop]
    · rename_i hnl
      have he : (cpwlLoop p (sortByStart
          (links.filter (fun l => (substrIndex? p l.text).isSome))) 0).2 = p.length := by
        omega
      simp [he]

/-! ## C2 and C10: the extraction loop's offset bookkeeping -/

lemma extract_eq_annotate : ∀ (fuel : Nat) (remaining : List Char) (base : Nat)
    (text : List Char) (offset : Nat),
    (extractLinksF fuel remaining base text offset).2 =
      annotateLinks (scanMatchesF fuel remaining base) offset := by
  intro fuel
  induction fuel with
  | zero => intro r b t o; rfl
  | succ fuel ih =>
    intro r b t o
    rcases h : findLinkFrom r with _ | ⟨i, label, url⟩
    · simp only [extractLinksF, scanMatchesF, h, annotateLinks]
    · simp only [extractLinksF, scanMatchesF, h, annotateLinks]
      have heq : o + (label.length + url.length + 4 - label.length) = o + (url.length + 4) := by
        omega
      rw [heq, ih]

/-- Lower bound structure of the raw matches: every match starts at or after
the scan position, and the next scan position is past the previous match. -/
def scanLB : List (Nat × List Char × List Char) → Nat → Prop
  | [], _ => True
  | (idx, label, url) :: rest, b => b ≤ idx ∧ scanLB rest (idx + (label.length + url.length + 4))

lemma scanMatchesF_lb : ∀ (fuel : Nat) (remaining : List Char) (base : Nat),
    scanLB (scanMatchesF fuel remaining base) base := by
  intro fuel
  induction fuel with
  | zero => intro r b; trivial
  | succ fuel ih =>
    intro r b
    rcases h : findLinkFrom r with _ | ⟨i, label, url⟩
    · simp only [scanMatchesF, h]
      trivial
    · simp only [scanMatchesF, h, scanLB]
      exact ⟨Nat.le_add_right _ _, ih _ _⟩

lemma annotate_wf : ∀ (ms : List (Nat × List Char × List Char)) (b shrink : Nat),
    scanLB ms b → linksWellFormed (annotateLinks ms shrink) := by
  intro ms
  induction ms with
  | nil => intro b shrink h; trivial
  | cons x rest ih =>
    obtain ⟨idx, label, url⟩ := x
    intro b shrink h
    obtain ⟨hb, hrest⟩ := h
    cases rest with
    | nil =>
      simp only [annotateLinks, linksWellFormed]
      omega
    | cons y rest2 =>
      obtain ⟨idy, ly, uy⟩ := y
      have hy : idx + (label.length + url.length + 4) ≤ idy := hrest.1
      simp only [annotateLinks, linksWellFormed]
      refine ⟨by omega, by omega, ?_⟩
      have hrec := ih (idx + (label.length + url.length + 4)) (shrink + (url.length + 4)) hrest
      simpa [annotateLinks] using hrec

lemma extract_text_eq_replaceMatches : ∀ (fuel : Nat) (remaining : List Char) (base : Nat)
    (text : List Char) (offset : Nat),
    (extractLinksF fuel remaining base text offset).1 =
      replaceMatchesText (scanMatchesF fuel remaining base) text := by
  intro fuel
  induction fuel with
  | zero => intro r b t o; rfl
  | succ fuel ih =>
    intro r b t o
    rcases h : findLinkFrom r with _ | ⟨i, label, url⟩
    · simp only [extractLinksF, scanMatchesF, h, replaceMatchesText]
    · simp only [extractLinksF, scanMatchesF, h, replaceMatchesText]
      exact ih _ _ _ _

/-- C2 counterexample: not every occurrence of `[label](url)` in the input
ends up replaced by just its label.  On `"[[x](u)](u) [x](u)"` the first
extraction (full match `"[[x](u)"`, label `"[x"`) turns the evolving text
into `"[x](u) [x](u)"`, creating an artifact copy of the second match's
markup at position 0; the second extraction's `replace` then strikes that
artifact, so the final normalized text is `"x [x](u)"` and still contains
the intact link markup `"[x](u)"`. -/
theorem c2_replace_clobbers_artifact :
    (parseMarkdownWithLinks ("[[x](u)](u) [x](u)".toList)).text = "x [x](u)".toList ∧
    ¬ substrIndex? ((parseMarkdownWithLinks ("[[x](u)](u) [x](u)".toList)).text)
        ("[x](u)".toList) = none :=
  ⟨by decide, by decide⟩

/-- C2 (amended): for every input, the recorded links are exactly the raw
regex matches annotated by the spec's incremental-shrinkage formula — each
link's `start` is its match index in the original markdown minus the
accumulated `len(fullMatch) - len(label)` of all previously extracted
links, and its `end` is `start + len(label)` — and the evolving text is
obtained by replacing, for each match in scan order, the *first* occurrence
of its full markup by its bare label (which can strike an identical
artifact copy rather than the scanned occurrence, so link markup can
survive in the output).  In particular, the sole link of
`"[Smith v. Jones](http://example.com/case)"` is recorded with `start 0`
and `end 14`, and the returned text is `"Smith v. Jones"`. -/
theorem c2_link_offsets :
    (∀ md : List Char,
      (parseMarkdownWithLinks md).links = annotateLinks (scanMatches md) 0 ∧
      (extractLinksF (md.length + 1) md 0 md 0).1 = replaceMatchesText (scanMatches md) md)
    ∧ parseMarkdownWithLinks ("[Smith v. Jones](http://example.com/case)".toList)
      = { text := "Smith v. Jones".toList,
          links := [{ text := "Smith v. Jones".toList,
                      url := "http://example.com/case".toList, start := 0, stop := 14 }] } := by
  constructor
  · intro md
    constructor
    · simp only [parseMarkdownWithLinks, scanMatches]
      exact extract_eq_annotate _ _ _ _ _
    · simp only [scanMatches]
      exact extract_text_eq_replaceMatches _ _ _ _ _
  · decide

/-- C10: for every input markdown, the extracted link list is ordered by
appearance with non-overlapping spans: every link satisfies
`start ≤ end`, and each link's `end` is at most the next link's `start`. -/
theorem c10_links_ordered (md : List Char) :
    linksWellFormed (parseMarkdownWithLinks md).links := by
  simp only [parseMarkdownWithLinks]
  rw [extract_eq_annotate (md.length + 1) md 0 md 0]
  exact annotate_wf _ 0 0 (scanMatchesF_lb _ _ _)

/-! ## C6: the emphasis substitutions are no-ops, the header ones are not -/

lemma findCloseStars2_sound : ∀ (t inner rest : List Char),
    findCloseStars2 t = some (inner, rest) → t = inner ++ '*' :: '*' :: rest := by
  intro t
  induction t with
  | nil => intro inner rest h; cases h
  | cons c t ih =>
    intro inner rest h
    cases t with
    | nil => simp [findCloseStars2] at h
    | cons d t2 =>
      simp only [findCloseStars2] at h
      split at h
      · rename_i hcd
        obtain ⟨hc, hd⟩ := hcd
        cases h
        subst hc
        subst hd
        simp
      · split at h
        · cases h
        · rcases hm : findCloseStars2 (d :: t2) with _ | ⟨inner2, rest2⟩
          · rw [hm] at h; cases h
          · rw [hm] at h
            simp only [Option.map_some'] at h
            cases h
            have hrec := ih inner2 rest hm
            simp [hrec]

lemma findCloseStar1_sound : ∀ (t inner rest : List Char),
    findCloseStar1 t = some (inner, rest) → t = inner ++ '*' :: rest := by
  intro t
  induction t with
  | nil => intro inner rest h; cases h
  | cons c t ih =>
    intro inner rest h
    simp only [findCloseStar1] at h
    split at h
    · rename_i hc
      cases h
      subst hc
      simp
    · split at h
      · cases h
      · rcases hm : findCloseStar1 t with _ | ⟨inner2, rest2⟩
        · rw [hm] at h; cases h
        · rw [hm] at h
          simp only [Option.map_some'] at h
          cases h
          have hrec := ih inner2 rest hm
          simp [hrec]

lemma boldMatchAt_spec : ∀ (s mt rp rest : List Char),
    boldMatchAt s = some (mt, rp, rest) → rp = mt ∧ s = mt ++ rest ∧ mt ≠ [] := by
  intro s mt rp rest h
  match s with
  | [] => cases h
  | [c] => cases h
  | c :: d :: t =>
    simp only [boldMatchAt] at h
    split at h
    · rename_i hcd
      obtain ⟨hc, hd⟩ := hcd
      rcases hm : findCloseStars2 t with _ | ⟨inner, rest2⟩
      · rw [hm] at h; cases h
      · rw [hm] at h
        cases h
        have hrec := findCloseStars2_sound t inner rest hm
        subst hc
        subst hd
        refine ⟨rfl, by simp [hrec], by simp⟩
    · cases h

lemma italicMatchAt_spec : ∀ (s mt rp rest : List Char),
    italicMatchAt s = some (mt, rp, rest) → rp = mt ∧ s = mt ++ rest ∧ mt ≠ [] := by
  intro s mt rp rest h
  match s with
  | [] => cases h
  | c :: t =>
    simp only [italicMatchAt] at h
    split at h
    · rename_i hc
      rcases hm : findCloseStar1 t with _ | ⟨inner, rest2⟩
      · rw [hm] at h; cases h
      · rw [hm] at h
        cases h
        have hrec := findCloseStar1_sound t inner rest hm
        subst hc
        refine ⟨rfl, by simp [hrec], by simp⟩
    · cases h

/-- A global substitution whose matcher always replaces the match by itself
is the identity. -/
lemma globalRepF_id (m : List Char → Option (List Char × List Char × List Char))
    (hm : ∀ s mt rp rest, m s = some (mt, rp, rest) → rp = mt ∧ s = mt ++ rest ∧ mt ≠ []) :
    ∀ (fuel : Nat) (s : List Char), s.length ≤ fuel → globalRepF fuel m s = s := by
  intro fuel
  induction fuel with
  | zero => intro s h; rfl
  | succ fuel ih =>
    intro s h
    rcases hms : m s with _ | ⟨ma, rp, rest⟩
    · cases s with
      | nil => simp [globalRepF, hms]
      | cons c t =>
        simp only [globalRepF, hms]
        show c :: globalRepF fuel m t = c :: t
        rw [ih t (by simp at h; omega)]
    · simp only [globalRepF, hms]
      obtain ⟨hrp, hs, hne⟩ := hm s ma rp rest hms
      have hlen := congrArg List.length hs
      simp only [List.length_append] at hlen
      have hma : 0 < ma.length := List.length_pos.mpr hne
      rw [hrp, ih rest (by omega)]
      exact hs.symm

lemma boldStep_id (t : List Char) : boldStep t = t :=
  globalRepF_id boldMatchAt boldMatchAt_spec t.length t (le_refl _)

lemma italicStep_id (t : List Char) : italicStep t = t :=
  globalRepF_id italicMatchAt italicMatchAt_spec t.length t (le_refl _)

/-- A per-line rewrite that fixes every `gm` line of `s` leaves the whole
string unchanged. -/
lemma gmLinesF_id (f : List Char → List Char) :
    ∀ (fuel : Nat) (s : List Char), s.length ≤ fuel →
      (∀ l ∈ gmSplitF fuel s, f l = l) → gmLinesF fuel f s = s := by
  intro fuel
  induction fuel with
  | zero =>
    intro s hlen hf
    have hs : s = [] := List.length_eq_zero.mp (Nat.le_zero.mp hlen)
    subst hs
    exact hf [] (by simp [gmSplitF])
  | succ fuel ih =>
    intro s hlen hf
    simp only [gmLinesF]
    rcases hd : s.dropWhile (fun c => ! isLineTerm c) with _ | ⟨t, rest⟩
    · have hline : s.takeWhile (fun c => ! isLineTerm c) = s := by
        have htd := List.takeWhile_append_dropWhile (p := fun c => ! isLineTerm c) (l := s)
        rw [hd] at htd
        simpa using htd
      show f (s.takeWhile (fun c => ! isLineTerm c)) = s
      rw [hline]
      exact hf s (by simp only [gmSplitF, hd]; simp [hline])
    · have hsplit : s = s.takeWhile (fun c => ! isLineTerm c) ++ t :: rest := by
        conv_lhs => rw [← List.takeWhile_append_dropWhile (p := fun c => ! isLineTerm c) (l := s)]
        rw [hd]
      have hlenr : rest.length ≤ fuel := by
        have hls := congrArg List.length hsplit
        simp at hls
        omega
      have hfl : f (s.takeWhile (fun c => ! isLineTerm c))
          = s.takeWhile (fun c => ! isLineTerm c) :=
        hf _ (by simp only [gmSplitF, hd]; simp)
      have hfr : ∀ l ∈ gmSplitF fuel rest, f l = l := fun l hl =>
        hf l (by simp only [gmSplitF, hd]; simp [hl])
      show f (s.takeWhile (fun c => ! isLineTerm c)) ++ t :: gmLinesF fuel f rest = s
      rw [hfl, ih rest hlenr hfr]
      exact hsplit.symm

lemma gmMapLines_id (f : List Char → List Char) (s : List Char)
    (h : ∀ l ∈ gmSplit s, f l = l) : gmMapLines f s = s :=
  gmLinesF_id f s.length s (le_refl _) h

lemma headerRule_id (mark t : List Char)
    (h : ∀ l ∈ gmSplit t, mark.isPrefixOf l = false) : headerRule mark t = t := by
  unfold headerRule
  exact gmMapLines_id _ _ (fun l hl => by simp [h l hl])

/-- Decidable test: no `gm` line of `t` starts with one of the three header
markers. -/
def headerFree (t : List Char) : Bool :=
  (gmSplit t).all (fun l =>
    ! (("### ".toList).isPrefixOf l || ("## ".toList).isPrefixOf l || ("# ".toList).isPrefixOf l))

lemma headerSteps_id (t : List Char) (h : headerFree t = true) : headerSteps t = t := by
  simp only [headerFree, List.all_eq_true, Bool.not_eq_true', Bool.or_eq_false_iff] at h
  unfold headerSteps
  rw [headerRule_id ("### ".toList) t (fun l hl => (h l hl).1.1),
      headerRule_id ("## ".toList) t (fun l hl => (h l hl).1.2),
      headerRule_id ("# ".toList) t (fun l hl => (h l hl).2)]

/-- C6 counterexample: the header-normalization steps are not the identity:
on `"# Heading"` they produce `"# Heading\n"` (the replacement `'# $1\n'`
appends a newline to every matched header line). -/
theorem c6_header_not_noop :
    headerSteps ("# Heading".toList) ≠ "# Heading".toList := by decide

/-- C6 (amended): the bold/italic (emphasis) substitutions are no-ops — the
identity on every input — while the header substitutions are the identity
only on texts none of whose `gm` lines (segments delimited by any
ECMAScript line terminator) starts with a header marker; on matched header
lines they append a newline. -/
theorem c6_emphasis_noop (t u : List Char) (h : headerFree u = true) :
    italicStep (boldStep t) = t ∧ headerSteps u = u := by
  rw [boldStep_id, italicStep_id, headerSteps_id u h]
  exact ⟨rfl, rfl⟩

/-- Witness for `c6_emphasis_noop` at concrete inputs. -/
theorem c6_emphasis_noop_witness :
    headerFree ("plain text".toList) = true ∧
    (italicStep (boldStep ("a **b** c".toList)) = "a **b** c".toList ∧
      headerSteps ("plain text".toList) = "plain text".toList) :=
  ⟨by decide, c6_emphasis_noop ("a **b** c".toList) ("plain text".toList) (by decide)⟩

/-! ## C4: the two normalizers agree exactly on link-free inputs -/

lemma globalRepF_nolink : ∀ (fuel : Nat) (s : List Char), findLinkFrom s = none →
    globalRepF fuel linkInlineMatchAt s = s := by
  intro fuel
  induction fuel with
  | zero => intro s h; rfl
  | succ fuel ih =>
    intro s h
    cases s with
    | nil => rfl
    | cons c t =>
      have hm : linkMatchAt (c :: t) = none := by
        rcases hmm : linkMatchAt (c :: t) with _ | ⟨l, u⟩
        · rfl
        · exfalso
          simp only [findLinkFrom, hmm] at h
          exact Option.noConfusion h
      have ht : findLinkFrom t = none := by
        simp only [findLinkFrom, hm, Option.map_eq_none'] at h
        exact h
      have hInl : linkInlineMatchAt (c :: t) = none := by
        simp only [linkInlineMatchAt, hm]
      simp only [globalRepF, hInl]
      show c :: globalRepF fuel linkInlineMatchAt t = c :: t
      rw [ih t ht]

/-- C4 counterexample: on `"[a](b)"` the PDF normalizer produces `"a (b)"`
while the DOCX normalizer's text is `"a"` — the two normalized texts are
not equal for every input. -/
theorem c4_normalizers_differ :
    parseMarkdownToText ("[a](b)".toList) ≠ (parseMarkdownWithLinks ("[a](b)".toList)).text := by
  decide

/-- C4 (amended): the PDF renderer's markdown normalization agrees with the
`text` field of the DOCX renderer's normalizer exactly on inputs with no
`[label](url)` occurrence; on inputs containing a link they differ, because
`parseMarkdownToText` rewrites the link to `label (url)` inline while
`parseMarkdownWithLinks` keeps only `label` in the text. -/
theorem c4_no_link_agreement (md : List Char) (h : findLinkFrom md = none) :
    parseMarkdownToText md = (parseMarkdownWithLinks md).text := by
  have hext : extractLinksF (md.length + 1) md 0 md 0 = (md, []) := by
    simp only [extractLinksF, h]
  have hg : gsubAll linkInlineMatchAt md = md := globalRepF_nolink md.length md h
  simp only [parseMarkdownToText, parseMarkdownWithLinks, gsubAll] at *
  rw [hg, hext]

/-- Witness for `c4_no_link_agreement` at a concrete link-free input. -/
theorem c4_no_link_agreement_witness :
    findLinkFrom ("no markdown links here".toList) = none ∧
    parseMarkdownToText ("no markdown links here".toList) =
      (parseMarkdownWithLinks ("no markdown links here".toList)).text :=
  ⟨by decide, c4_no_link_agreement ("no markdown links here".toList) (by decide)⟩

/-! ## C5: the output depends on the generation timestamp -/

/-- C5 counterexample: two invocations with identical `(content,
documentName, roleFlag)` but different clock readings produce different
documents — the footer block embeds the generation timestamp, so the
rendered document is not a function of the input arguments only. -/
theorem c5_timestamp_dependence :
    createDocxDocument ("x".toList) ("doc".toList) true ("timestamp one".toList) ≠
    createDocxDocument ("x".toList) ("doc".toList) true ("timestamp two".toList) := by
  decide


/-- C5 (amended): apart from the footer timestamp block (the last block),
the rendered document is a function of `(content, documentName, roleFlag)`
only: all other blocks are identical across invocations with identical
inputs, whatever the two clock readings are. -/
theorem c5_deterministic_modulo_footer (content documentName : List Char) (isPlaintiff : Bool)
    (now1 now2 : List Char) :
    (createDocxDocument content documentName isPlaintiff now1).blocks.dropLast =
    (createDocxDocument content documentName isPlaintiff now2).blocks.dropLast := by
  simp only [createDocxDocument]
  rw [List.dropLast_concat, List.dropLast_concat]

/-! ## C8: empty input -/

lemma parse_nil : parseMarkdownWithLinks ([] : List Char) = { text := [], links := [] } := by
  decide

lemma segment_nil : segmentParagraphs ([] : List Char) = [] := by decide

/-- C8: on empty content the normalizer returns empty text and no links,
and the assembled document consists of exactly the centered title block,
the two bold metadata blocks (document name and role) and the footer
timestamp block — zero paragraph blocks in between. -/
theorem c8_empty_input (documentName : List Char) (isPlaintiff : Bool) (now : List Char) :
    parseMarkdownWithLinks ([] : List Char) = { text := [], links := [] } ∧
    createDocxDocument [] documentName isPlaintiff now =
      { blocks := [titleBlock isPlaintiff, docNameBlock documentName,
                   roleBlock isPlaintiff, footerBlock now] } := by
  refine ⟨parse_nil, ?_⟩
  simp [createDocxDocument, parse_nil, segment_nil]

/-! ## C3: graceful degradation, no failure branch -/

lemma filter_links_nil (p : List Char) (links : List Link)
    (h : ∀ l ∈ links, substrIndex? p l.text = none) :
    links.filter (fun l => (substrIndex? p l.text).isSome) = [] := by
  induction links with
  | nil => rfl
  | cons lk rest ih =>
    have h1 := h lk (by simp)
    simp only [List.filter_cons, h1]
    simp [ih (fun l hl => h l (by simp [hl]))]

/-- C3: the pre-serialization pipeline is total — every stage is a plain
function on all inputs, with no failure branch to model (only the external
binary serialization `Packer.toBuffer` can fail, and it is outside the
model).  Concretely: (a) a paragraph none of whose recorded links matches
degrades to a single plain-text run carrying the whole paragraph; (b) for
every input the assembled document is complete, with its title, two
metadata blocks, one block per segmented paragraph and the footer. -/
theorem c3_graceful (p : List Char) (links : List Link) (content documentName : List Char)
    (isPlaintiff : Bool) (now : List Char)
    (h : ∀ l ∈ links, substrIndex? p l.text = none) :
    createParagraphWithLinks links p = { runs := [{ text := p }], spacingAfter := 200 } ∧
    (createDocxDocument content documentName isPlaintiff now).blocks.length =
      (segmentParagraphs (parseMarkdownWithLinks content).text).length + 4 := by
  constructor
  · simp only [createParagraphWithLinks, filter_links_nil p links h]
    rfl
  · simp [createDocxDocument]

/-- Witness for `c3_graceful` at concrete inputs. -/
theorem c3_graceful_witness :
    (∀ l ∈ [({ text := "zz".toList, url := "u".toList, start := 0, stop := 2 } : Link)],
        substrIndex? ("hello".toList) l.text = none) ∧
    (createParagraphWithLinks [{ text := "zz".toList, url := "u".toList, start := 0, stop := 2 }]
        ("hello".toList) = { runs := [{ text := "hello".toList }], spacingAfter := 200 } ∧
      (createDocxDocument ("x".toList) ("d".toList) true ("t".toList)).blocks.length =
        (segmentParagraphs (parseMarkdownWithLinks ("x".toList)).text).length + 4) :=
  ⟨by decide,
    c3_graceful ("hello".toList)
      [{ text := "zz".toList, url := "u".toList, start := 0, stop := 2 }]
      ("x".toList) ("d".toList) true ("t".toList) (by decide)⟩

/-! ## Helpers about takeWhile/dropWhile runs and newline-free lines -/

lemma takeWhile_append_stop (p : Char → Bool) (xs : List Char) (y : Char) (ys : List Char)
    (hy : p y = false) : (xs ++ y :: ys).takeWhile p = xs.takeWhile p := by
  induction xs with
  | nil => simp [List.takeWhile_cons, hy]
  | cons x xs ih =>
    simp only [List.cons_append, List.takeWhile_cons]
    cases hx : p x
    · simp
    · simp [ih]

lemma dropWhile_append_stop (p : Char → Bool) (xs : List Char) (y : Char) (ys : List Char)
    (hy : p y = false) : (xs ++ y :: ys).dropWhile p = xs.dropWhile p ++ y :: ys := by
  induction xs with
  | nil => simp [List.dropWhile_cons, hy]
  | cons x xs ih =>
    simp only [List.cons_append, List.dropWhile_cons]
    cases hx : p x
    · simp
    · simp [ih]

lemma takeWhile_all (p : Char → Bool) (l : List Char) (h : ∀ c ∈ l, p c = true) :
    l.takeWhile p = l := by
  induction l with
  | nil => rfl
  | cons x xs ih =>
    simp only [List.takeWhile_cons, h x (by simp)]
    simp [ih (fun c hc => h c (by simp [hc]))]

lemma dropWhile_all (p : Char → Bool) (l : List Char) (h : ∀ c ∈ l, p c = true) :
    l.dropWhile p = [] := by
  induction l with
  | nil => rfl
  | cons x xs ih =>
    simp only [List.dropWhile_cons, h x (by simp)]
    simp [ih (fun c hc => h c (by simp [hc]))]

/-- On a terminator-free string a `gm` substitution sees a single line. -/
lemma gmMapLines_no_term (f : List Char → List Char) (s : List Char)
    (h : ∀ c ∈ s, isLineTerm c = false) : gmMapLines f s = f s := by
  unfold gmMapLines
  cases s with
  | nil => rfl
  | cons c t =>
    show gmLinesF (t.length + 1) f (c :: t) = f (c :: t)
    simp only [gmLinesF]
    rw [takeWhile_all _ _ (fun x hx => by simp [h x hx]),
        dropWhile_all _ _ (fun x hx => by simp [h x hx])]

/-! ## C9: bullet-list conversion -/

/-- C9: every `gm` line consisting of a `- `, `* ` or `+ ` marker (or
digits followed by `. `) and a terminator-free remainder is rewritten by
the bullet steps of the normalizer to `• ` followed by the remainder plus
a trailing newline; and on `"- item one\n- item two"` the full normalizer
produces `"• item one\n\n• item two\n"`, each item on its own line. -/
theorem c9_bullets (rest ds : List Char) (hterm : ∀ c ∈ rest, isLineTerm c = false)
    (hds : ds ≠ []) (hdig : ∀ c ∈ ds, isDigitCh c = true) :
    bulletMarkers ('-' :: ' ' :: rest) = '•' :: ' ' :: (rest ++ ['\n']) ∧
    bulletMarkers ('*' :: ' ' :: rest) = '•' :: ' ' :: (rest ++ ['\n']) ∧
    bulletMarkers ('+' :: ' ' :: rest) = '•' :: ' ' :: (rest ++ ['\n']) ∧
    bulletNumbers (ds ++ '.' :: ' ' :: rest) = '•' :: ' ' :: (rest ++ ['\n']) ∧
    (parseMarkdownWithLinks ("- item one\n- item two".toList)).text
      = "• item one\n\n• item two\n".toList := by
  have hmark : ∀ m : Char, isLineTerm m = false → (m = '-' ∨ m = '*' ∨ m = '+') →
      bulletMarkers (m :: ' ' :: rest) = '•' :: ' ' :: (rest ++ ['\n']) := by
    intro m hmt hm
    have hno : ∀ c ∈ (m :: ' ' :: rest), isLineTerm c = false := by
      intro c hmem
      simp only [List.mem_cons] at hmem
      rcases hmem with h | h | h
      · subst h; exact hmt
      · subst h; decide
      · exact hterm c h
    unfold bulletMarkers
    rw [gmMapLines_no_term _ _ hno]
    simp [bulletMarkLine, hm]
  refine ⟨hmark '-' (by decide) (by simp),
          hmark '*' (by decide) (by simp),
          hmark '+' (by decide) (by simp), ?_, by decide⟩
  have hno : ∀ c ∈ (ds ++ '.' :: ' ' :: rest), isLineTerm c = false := by
    intro c hmem
    rcases List.mem_append.mp hmem with h | h
    · have hdc := hdig c h
      simp only [isDigitCh, decide_eq_true_eq] at hdc
      simp only [isLineTerm, decide_eq_false_iff_not]
      omega
    · simp only [List.mem_cons] at h
      rcases h with h | h | h
      · subst h; decide
      · subst h; decide
      · exact hterm c h
  unfold bulletNumbers
  rw [gmMapLines_no_term _ _ hno]
  have hemp : ds.isEmpty = false := by
    cases ds with
    | nil => exact absurd rfl hds
    | cons a as => rfl
  have htw : (ds ++ '.' :: ' ' :: rest).takeWhile isDigitCh = ds := by
    rw [takeWhile_append_stop _ _ _ _ (by decide)]
    exact takeWhile_all _ _ hdig
  have hdw : (ds ++ '.' :: ' ' :: rest).dropWhile isDigitCh = '.' :: ' ' :: rest := by
    rw [dropWhile_append_stop _ _ _ _ (by decide), dropWhile_all _ _ hdig]
    rfl
  simp only [bulletNumLine, htw, hdw, hemp]
  simp

/-- Witness for `c9_bullets` at concrete inputs. -/
theorem c9_bullets_witness :
    ((∀ c ∈ ("item one".toList), isLineTerm c = false) ∧ ['1'] ≠ ([] : List Char) ∧
      (∀ c ∈ ['1'], isDigitCh c = true)) ∧
    (bulletMarkers ('-' :: ' ' :: "item one".toList)
        = '•' :: ' ' :: ("item one".toList ++ ['\n']) ∧
      bulletMarkers ('*' :: ' ' :: "item one".toList)
        = '•' :: ' ' :: ("item one".toList ++ ['\n']) ∧
      bulletMarkers ('+' :: ' ' :: "item one".toList)
        = '•' :: ' ' :: ("item one".toList ++ ['\n']) ∧
      bulletNumbers (['1'] ++ '.' :: ' ' :: "item one".toList)
        = '•' :: ' ' :: ("item one".toList ++ ['\n']) ∧
      (parseMarkdownWithLinks ("- item one\n- item two".toList)).text
        = "• item one\n\n• item two\n".toList) :=
  ⟨⟨by decide, by decide, by decide⟩,
    c9_bullets ("item one".toList) ['1'] (by decide) (by decide) (by decide)⟩

/-! ## C7: the outline-continuation heuristic -/

lemma globalRepF_nil (m : List Char → Option (List Char × List Char × List Char))
    (h0 : m [] = none) : ∀ fuel, globalRepF fuel m [] = [] := by
  intro fuel
  cases fuel with
  | zero => rfl
  | succ fuel => simp only [globalRepF, h0]

/-- When the matcher fires on the whole string at position zero, the global
substitution yields exactly the replacement. -/
lemma gsubAll_single_match (m : List Char → Option (List Char × List Char × List Char))
    (s mt rp : List Char) (h : m s = some (mt, rp, [])) (h0 : m [] = none) :
    gsubAll m s = rp := by
  cases s with
  | nil => rw [h0] at h; cases h
  | cons c t =>
    unfold gsubAll
    have hl : (c :: t).length = t.length + 1 := rfl
    rw [hl]
    simp only [globalRepF, h]
    rw [globalRepF_nil m h0 t.length]
    simp

lemma upper_not_ws (c : Char) (h : isUpperAZ c = true) : isWsChar c = false := by
  simp only [isUpperAZ, decide_eq_true_eq] at h
  simp only [isWsChar, decide_eq_false_iff_not]
  omega

/-- C7: when an uppercase enumerator `c1.`, a period-free run and a period
are followed by whitespace and another uppercase enumerator `c2.`, the
outline step replaces the separating whitespace with a newline; and the
full normalizer maps `"A. First point. B. Second point."` to
`"A. First point.\nB. Second point."`. -/
theorem c7_outline_heuristic (c1 c2 : Char) (mid : List Char)
    (h1 : isUpperAZ c1 = true) (h2 : isUpperAZ c2 = true) (hdot : '.' ∉ mid) :
    outlineLetters (c1 :: '.' :: ' ' :: (mid ++ '.' :: ' ' :: c2 :: '.' :: [' ']))
      = c1 :: '.' :: ' ' :: (mid ++ '.' :: '\n' :: c2 :: '.' :: [' ']) ∧
    (parseMarkdownWithLinks ("A. First point. B. Second point.".toList)).text
      = "A. First point.\nB. Second point.".toList := by
  have hws_sp : isWsChar ' ' = true := by decide
  have hns_dot : isWsChar '.' = false := by decide
  have hc2ws : isWsChar c2 = false := upper_not_ws c2 h2
  have htw1 : (' ' :: (mid ++ '.' :: ' ' :: c2 :: '.' :: [' '])).takeWhile isWsChar
      = ' ' :: mid.takeWhile isWsChar := by
    rw [List.takeWhile_cons, hws_sp]
    simp [takeWhile_append_stop _ _ _ _ hns_dot]
  have hdw1 : (' ' :: (mid ++ '.' :: ' ' :: c2 :: '.' :: [' '])).dropWhile isWsChar
      = mid.dropWhile isWsChar ++ '.' :: ' ' :: c2 :: '.' :: [' '] := by
    rw [List.dropWhile_cons, hws_sp]
    simp [dropWhile_append_stop _ _ _ _ hns_dot]
  have e1 : enumDotWs (c1 :: '.' :: ' ' :: (mid ++ '.' :: ' ' :: c2 :: '.' :: [' ']))
      = some (c1 :: '.' :: (' ' :: mid.takeWhile isWsChar),
              mid.dropWhile isWsChar ++ '.' :: ' ' :: c2 :: '.' :: [' ']) := by
    simp only [enumDotWs, h1, if_true, htw1, hdw1]
    simp
  have e2 : enumDotWs (c2 :: '.' :: [' ']) = some (c2 :: '.' :: [' '], []) := by
    simp only [enumDotWs, h2, if_true]
    simp [hws_sp]
  have hmem_dw : ∀ c ∈ mid.dropWhile isWsChar, ¬ c = '.' := by
    intro c hc he
    exact hdot (he ▸ (List.dropWhile_sublist isWsChar).subset hc)
  have hbody_tw : (mid.dropWhile isWsChar ++ '.' :: ' ' :: c2 :: '.' :: [' ']).takeWhile
      (fun c => ¬ c = '.') = mid.dropWhile isWsChar := by
    rw [takeWhile_append_stop _ _ _ _ (by decide)]
    exact takeWhile_all _ _ (fun c hc => by simpa using hmem_dw c hc)
  have hbody_dw : (mid.dropWhile isWsChar ++ '.' :: ' ' :: c2 :: '.' :: [' ']).dropWhile
      (fun c => ¬ c = '.') = '.' :: ' ' :: c2 :: '.' :: [' '] := by
    rw [dropWhile_append_stop _ _ _ _ (by decide),
        dropWhile_all _ _ (fun c hc => by simpa using hmem_dw c hc)]
    rfl
  have htw2 : (' ' :: c2 :: '.' :: [' ']).takeWhile isWsChar = [' '] := by
    rw [List.takeWhile_cons, hws_sp]
    simp [List.takeWhile_cons, hc2ws]
  have hdw2 : (' ' :: c2 :: '.' :: [' ']).dropWhile isWsChar = c2 :: '.' :: [' '] := by
    rw [List.dropWhile_cons, hws_sp]
    simp [List.dropWhile_cons, hc2ws]
  have hmatch : outlineLettersMatchAt (c1 :: '.' :: ' ' :: (mid ++ '.' :: ' ' :: c2 :: '.' :: [' ']))
      = some (((c1 :: '.' :: (' ' :: mid.takeWhile isWsChar)) ++ mid.dropWhile isWsChar ++ ['.'])
                ++ [' '] ++ (c2 :: '.' :: [' ']),
              ((c1 :: '.' :: (' ' :: mid.takeWhile isWsChar)) ++ mid.dropWhile isWsChar ++ ['.'])
                ++ '\n' :: (c2 :: '.' :: [' ']),
              []) := by
    simp only [outlineLettersMatchAt, outlineMatchWith, e1, hbody_tw, hbody_dw, htw2, hdw2, e2]
    simp
  constructor
  · show gsubAll outlineLettersMatchAt _ = _
    rw [gsubAll_single_match _ _ _ _ hmatch rfl]
    simp only [List.cons_append, List.append_assoc]
    rw [← List.append_assoc (mid.takeWhile isWsChar), List.takeWhile_append_dropWhile]
    simp
  · decide

/-- Witness for `c7_outline_heuristic` at the spec's concrete example. -/
theorem c7_outline_heuristic_witness :
    (isUpperAZ 'A' = true ∧ isUpperAZ 'B' = true ∧ '.' ∉ ("First point".toList)) ∧
    (outlineLetters ('A' :: '.' :: ' ' :: ("First point".toList ++ '.' :: ' ' :: 'B' :: '.' :: [' ']))
        = 'A' :: '.' :: ' ' :: ("First point".toList ++ '.' :: '\n' :: 'B' :: '.' :: [' ']) ∧
      (parseMarkdownWithLinks ("A. First point. B. Second point.".toList)).text
        = "A. First point.\nB. Second point.".toList) :=
  ⟨⟨by decide, by decide, by decide⟩,
    c7_outline_heuristic 'A' 'B' ("First point".toList) (by decide) (by decide) (by decide)⟩
